import Mathlib

/-!
Shallow embedding of the godouble test-double framework (Go), covering the
call-matching and verification engine: expectations, recorded-call views,
method registration and dispatch, spy/fake idempotence and return-value
sequences.  Each definition mirrors the Go source function of the same (or
closest legal) name.
-/

namespace GoDouble

/-! ### Expectations (expectation.go)

Go counts are `int`; we model them as `Int`.  `calledExactly` and
`calledBetween` implement the `Completion` interface; `calledNever` and
`calledAtLeast` do not. `AtMost(n)` is defined in Go as `Between(0, n)`. -/

inductive Expectation where
  | exactly (n : Int)
  | never
  | atLeast (n : Int)
  | between (lo hi : Int)
deriving Repr, DecidableEq

/-- Go `Met` of each variant (methods `calledExactly.Met`, `calledNever.Met`,
`calledAtLeast.Met`, `calledBetween.Met`). -/
def Expectation.met : Expectation → Int → Bool
  | .exactly n, count => count == n
  | .never, count => count == 0
  | .atLeast n, count => decide (count ≥ n)
  | .between lo hi, count => decide (count ≥ lo) && decide (count ≤ hi)

/-- Which variants implement the Go `Completion` interface (have a `Complete`
method): `calledExactly` and `calledBetween` do, the others do not. -/
def Expectation.isCompletion : Expectation → Bool
  | .exactly _ => true
  | .between _ _ => true
  | .never => false
  | .atLeast _ => false

/-- Go `Complete` of the `Completion` variants (`calledExactly.Complete`,
`calledBetween.Complete`); for a non-`Completion` variant this returns
`false`, mirroring `mockedMethodCall.complete`, whose type assertion
`c.expect.(Completion)` fails there. -/
def Expectation.completeB : Expectation → Int → Bool
  | .exactly n, count => decide (count ≥ n)
  | .between _ hi, count => decide (count ≥ hi)
  | .never, _ => false
  | .atLeast _, _ => false

/-- Go constructor `AtMost(n) = Between(0, n)`. -/
def AtMost (n : Int) : Expectation := .between 0 n

/-- Go constructor `Once() = Exactly(1)`. -/
def Once : Expectation := .exactly 1

/-- Go constructor `Twice() = Exactly(2)`. -/
def Twice : Expectation := .exactly 2

/-! ### Recorded calls and views (spy.go)

A `recordedCall` is an argument tuple plus a tick drawn from the global
atomic counter.  A view is just the `recorded` slice of a `spyMethodCall`;
the derivation-description strings are diagnostics and are not modelled. -/

structure RecordedCall (α : Type) where
  tick : Nat
  args : List α
deriving Repr, DecidableEq

/-- Go `spyMethodCall.Matching`: keep the recorded calls whose arguments
satisfy the constructed matcher. -/
def Matching (matcher : List α → Bool) (recorded : List (RecordedCall α)) :
    List (RecordedCall α) :=
  recorded.filter fun rc => matcher rc.args

/-- Go `spyMethodCall.Slice(from,to)`: Go slice semantics with graceful
clamping; negative bounds or `from > to` fatally fail the test (modelled as
`Except.error`).  Mirrors the branch structure of the Go source. -/
def Slice (recorded : List (RecordedCall α)) (f t : Int) :
    Except String (List (RecordedCall α)) :=
  let l : Int := recorded.length
  if f < 0 || t < 0 || f > t then .error "Invalid Slice of RecordedCalls"
  else if f > l then .ok []
  else if t > l then .ok (recorded.drop f.toNat)
  else .ok ((recorded.take t.toNat).drop f.toNat)

/-- Go's `sort.Search(n, f)`: binary search returning the smallest index in
`[0, n]` at which `f` is true, assuming `f` is false then true. Mirrors the
loop `i, j := 0, n; for i < j { h := (i+j)/2; ... }`. -/
def sortSearchAux (f : Nat → Bool) (i j : Nat) : Nat :=
  if h : i < j then
    let m := (i + j) / 2
    if f m then sortSearchAux f i m else sortSearchAux f (m + 1) j
  else i
termination_by j - i
decreasing_by
  all_goals simp_wf
  · omega
  · omega

def sortSearch (n : Nat) (f : Nat → Bool) : Nat := sortSearchAux f 0 n

/-- Tick of `recorded[i]` as read inside the `sort.Search` predicate (Go
indexes within bounds; out-of-range reads never occur there). -/
def tickAt (recorded : List (RecordedCall α)) (i : Nat) : Nat :=
  match recorded[i]? with
  | some rc => rc.tick
  | none => 0

/-- Go `spyMethodCall.After`: with `recorded` the other view's entries, take the
suffix of this view strictly after the other view's last tick, found by
`sort.Search`; all entries count as after an empty set. -/
def After (cs other : List (RecordedCall α)) : List (RecordedCall α) :=
  match other.getLast? with
  | some lastRec =>
    let lastTick := lastRec.tick
    let p := sortSearch cs.length fun i => decide (lastTick < tickAt cs i)
    if p < cs.length then cs.drop p else []
  | none => cs

/-- Strictly increasing tick order, as a decidable Bool. -/
def ticksSorted : List (RecordedCall α) → Bool
  | [] => true
  | [_] => true
  | a :: b :: rest => decide (a.tick < b.tick) && ticksSorted (b :: rest)

/-! ### Method calls, methods and the TestDouble world
(godouble.go, method.go, stub.go, mock.go, spy.go, fake.go)

A `RegCall` is the observable state of one registered `MethodCall`:
  * `stub`: optional matcher (`nil` matches anything) + optional fixed
    return values (`nil` falls back to the method's default return values);
  * `mock`: a stub plus call `count`, optional `Expectation` (`nil` when
    `Expect` was never called) and the `after` list, holding references
    (method index, registration index) to other mocks possibly on other
    methods or doubles;
  * `spy`: a stub (always-true matcher) plus the recorded-call log;
  * `fake`: a spy whose returns come from the user implementation.

All methods of all doubles live in one `World`, sharing the single global
`tick` counter, so cross-double `after` references and `After` views are
expressible. -/

inductive RegCall (α ρ : Type) where
  | stub (matcher : Option (List α → Bool)) (returns : Option (List ρ))
  | mock (matcher : Option (List α → Bool)) (returns : Option (List ρ))
      (expect : Option Expectation) (count : Int) (after : List (Nat × Nat))
  | spy (returns : Option (List ρ)) (recorded : List (RecordedCall α))
  | fake (impl : List α → List ρ) (recorded : List (RecordedCall α))

/-- Go `method`: its registered calls (insertion order), the double's
`defaultReturnValues(m)` result (Go default: zero values) and its
`defaultCall(m)` result (`none` models a nil default, which is fatal). -/
structure MethodState (α ρ : Type) where
  calls : List (RegCall α ρ)
  defaultReturns : List ρ
  defaultCall : Option (RegCall α ρ)

structure World (α ρ : Type) where
  methods : List (MethodState α ρ)
  tick : Nat

/-- Replace the element at index `i` by `f` of it (identity out of range). -/
def listModify (f : β → β) : List β → Nat → List β
  | [], _ => []
  | x :: xs, 0 => f x :: xs
  | x :: xs, n + 1 => x :: listModify f xs n

def World.modifyMethod (w : World α ρ) (mi : Nat)
    (f : MethodState α ρ → MethodState α ρ) : World α ρ :=
  { w with methods := listModify f w.methods mi }

def World.modifyCall (w : World α ρ) (mi ri : Nat)
    (f : RegCall α ρ → RegCall α ρ) : World α ρ :=
  w.modifyMethod mi fun ms => { ms with calls := listModify f ms.calls ri }

def World.callAt (w : World α ρ) (mi ri : Nat) : Option (RegCall α ρ) :=
  match w.methods[mi]? with
  | some ms => ms.calls[ri]?
  | none => none

/-- Go `stubbedMethodCall.matches`: a nil matcher matches anything. -/
def stubMatches (matcher : Option (List α → Bool)) (args : List α) : Bool :=
  match matcher with
  | some m => m args
  | none => true

/-- Go `mockedMethodCall.complete`: false when `expect` is nil or not a
`Completion`, otherwise `Complete(count)`. -/
def mockComplete (expect : Option Expectation) (count : Int) : Bool :=
  match expect with
  | some e => e.completeB count
  | none => false

/-- Go `mockedMethodCall.met`: a nil expectation is trivially met. -/
def mockMet (expect : Option Expectation) (count : Int) : Bool :=
  match expect with
  | some e => e.met count
  | none => true

/-- Go `complete()` of the mock referenced by `(methodIdx, regIdx)`; Go `after`
lists only ever hold mocks, so the non-mock fallback is unreachable there. -/
def World.mockCompleteAt (w : World α ρ) (ref : Nat × Nat) : Bool :=
  match w.callAt ref.1 ref.2 with
  | some (.mock _ _ expect count _) => mockComplete expect count
  | _ => false

/-- Go `mockedMethodCall.inSequence`: every referenced `after` mock complete. -/
def World.inSequence (w : World α ρ) (after : List (Nat × Nat)) : Bool :=
  after.all w.mockCompleteAt

/-- Go `matches` of each call variant (`stubbedMethodCall.matches`,
`mockedMethodCall.matches`, `spyMethodCall.matches`, inherited by fake). -/
def RegCall.matches (w : World α ρ) : RegCall α ρ → List α → Bool
  | .stub matcher _, args => stubMatches matcher args
  | .mock matcher _ expect count after, args =>
      stubMatches matcher args && !(mockComplete expect count) &&
        w.inSequence after
  | .spy _ _, _ => true
  | .fake _ _, _ => true

/-- Index of the first element satisfying `p` (the linear scan in
`method.match`). -/
def findFirstIdx (p : β → Bool) : List β → Option Nat
  | [] => none
  | x :: xs => if p x then some 0 else (findFirstIdx p xs).map (· + 1)

/-- Go `method.match`: scan registrations in insertion order for the first
match; on none, materialize the default call (fatal if nil or if it rejects
the arguments) and append it to the registration list.  Returns the possibly
extended world and the index of the chosen registration. -/
def World.methodMatch (w : World α ρ) (mi : Nat) (args : List α) :
    Except String (World α ρ × Nat) :=
  match w.methods[mi]? with
  | none => .error "unknown method"
  | some ms =>
    match findFirstIdx (fun r => r.matches w args) ms.calls with
    | some i => .ok (w, i)
    | none =>
      match ms.defaultCall with
      | none => .error "Nil DefaultMethodCall returned"
      | some dc =>
        if dc.matches w args then
          .ok (w.modifyMethod mi fun m => { m with calls := m.calls ++ [dc] },
               ms.calls.length)
        else .error "default matcher expected to match"

/-- Go `spy(args)` dispatch of the matched registration: a stub returns from
its source (nil source falls back to the default return values); a mock
increments its count first; a spy appends a recorded call stamped with the
next global tick; a fake records first, then returns the implementation's
outputs. -/
def World.dispatch (w : World α ρ) (mi ri : Nat) (args : List α) :
    World α ρ × Except String (List ρ) :=
  match w.methods[mi]? with
  | none => (w, .error "unknown method")
  | some ms =>
    match ms.calls[ri]? with
    | none => (w, .error "unknown call")
    | some (.stub _ rets) => (w, .ok (rets.getD ms.defaultReturns))
    | some (.mock matcher rets expect count after) =>
        (w.modifyCall mi ri fun _ => .mock matcher rets expect (count + 1) after,
         .ok (rets.getD ms.defaultReturns))
    | some (.spy rets recorded) =>
        let t := w.tick + 1
        ({ w.modifyCall mi ri fun _ => .spy rets (recorded ++ [⟨t, args⟩]) with
            tick := t },
         .ok (rets.getD ms.defaultReturns))
    | some (.fake impl recorded) =>
        let t := w.tick + 1
        ({ w.modifyCall mi ri fun _ => .fake impl (recorded ++ [⟨t, args⟩]) with
            tick := t },
         .ok (impl args))

/-- Go `method.invoke` (without the trace logging): match, then dispatch. -/
def World.invoke (w : World α ρ) (mi : Nat) (args : List α) :
    World α ρ × Except String (List ρ) :=
  match w.methodMatch mi args with
  | .error e => (w, .error e)
  | .ok (w1, ri) => w1.dispatch mi ri args

/-- Does this registration satisfy the Go `SpyMethodCall` interface?
`spyMethodCall` does directly; `fakeMethodCall` does through its embedded
`*spyMethodCall` (promoted `Returning` method). -/
def RegCall.isSpyCall : RegCall α ρ → Bool
  | .spy _ _ => true
  | .fake _ _ => true
  | _ => false

/-- Go `TestDouble.Spy`: return the first existing registration satisfying
`SpyMethodCall`, else append a fresh spy; fatal for a nonexistent method. -/
def World.spyOn (w : World α ρ) (mi : Nat) : Except String (World α ρ × Nat) :=
  match w.methods[mi]? with
  | none => .error "Cannot Spy on non existent method"
  | some ms =>
    match findFirstIdx RegCall.isSpyCall ms.calls with
    | some i => .ok (w, i)
    | none =>
      .ok (w.modifyMethod mi
             fun m => { m with calls := m.calls ++ [.spy none []] },
           ms.calls.length)

/-- Go `TestDouble.Fake`: fatal if any existing registration satisfies
`SpyMethodCall` (an unreachable fake), else append the fake. -/
def World.fakeOn (w : World α ρ) (mi : Nat) (impl : List α → List ρ) :
    Except String (World α ρ × Nat) :=
  match w.methods[mi]? with
  | none => .error "Cannot Fake non existent method"
  | some ms =>
    if ms.calls.any RegCall.isSpyCall then
      .error "unreachable fake which has previously registered a spy"
    else
      .ok (w.modifyMethod mi
             fun m => { m with calls := m.calls ++ [.fake impl []] },
           ms.calls.length)

/-- The recorded-call log of a spy or fake registration. -/
def RegCall.log? : RegCall α ρ → Option (List (RecordedCall α))
  | .spy _ recorded => some recorded
  | .fake _ recorded => some recorded
  | _ => none

/-- World invariant: every spy/fake log is in strictly increasing tick order
with all ticks at most the global counter, and default calls carry no
pre-existing recordings (Go default factories build fresh calls). -/
def World.inv (w : World α ρ) : Bool :=
  w.methods.all fun ms =>
    (ms.calls.all fun r =>
      match r.log? with
      | some recorded =>
          ticksSorted recorded && recorded.all fun rc => decide (rc.tick ≤ w.tick)
      | none => true) &&
    (match ms.defaultCall with
     | some dc => (dc.log?.getD []).isEmpty
     | none => true)

/-! ### Return value sources (return_values.go)

`fixedReturnValues` (from `Values(...)`) returns its tuple with a nil error
on every `Receive` and does not implement the `multiValues` interface.
`returnChannel` and `sequentialReturnValues` implement `multiValues` with
`multiValued() == true`.  A channel is modelled in its closed state: the
queued tuples are received in order, after which `Receive` errors with the
closed-channel error (the only way an inner channel drain terminates without
real time).  Timeouts and the delayed wrappers are wall-clock behaviour and
are outside this embedding. -/

inductive RV (ρ : Type) where
  | fixed (values : List ρ)
  | channel (queued : List (List ρ))
  | seq (sources : List (RV ρ))

/-- Go `fixedReturnValues.Receive`: stateless, always the tuple, never an
error. -/
def fixedReceive (values : List ρ) : Except String (List ρ) := .ok values

/-- The `multiValues` type assertion in `sequentialReturnValues.run`:
`returnChannel` and `sequentialReturnValues` have `multiValued() == true`;
`fixedReturnValues` does not implement the interface. -/
def RV.multiValued : RV ρ → Bool
  | .fixed _ => false
  | .channel _ => true
  | .seq _ => true

mutual
/-- The tuples the drainer goroutine of `sequentialReturnValues.run` relays
for one inner source: a multi-valued source is received repeatedly until its
first error (a closed channel yields its queue; a nested sequence yields its
own relayed stream); any other source is received exactly once and its tuple
relayed when that receive has no error — `fixedReturnValues` never errors,
so a fixed source always relays its single tuple. -/
def RV.emitted : RV ρ → List (List ρ)
  | .fixed values => [values]
  | .channel queued => queued
  | .seq sources => emittedAll sources

/-- The full stream relayed for a source list, in strict list order. -/
def emittedAll : List (RV ρ) → List (List ρ)
  | [] => []
  | source :: rest => source.emitted ++ emittedAll rest
end

/-- Go `sequentialReturnValues.Receive`: the n-th receive (counting from 0)
pops the n-th relayed tuple; once the relay channel is closed every further
receive fails with the no-more-values error. -/
def seqReceive (sources : List (RV ρ)) (n : Nat) : Except String (List ρ) :=
  match (emittedAll sources)[n]? with
  | some values => .ok values
  | none => .error "no available values"

/-- The n-th `Receive` from a fresh source of any kind (the view the drain
loop has of an inner source). -/
def RV.receiveAt : RV ρ → Nat → Except String (List ρ)
  | .fixed values, _ => fixedReceive values
  | .channel queued, n =>
    match queued[n]? with
    | some values => .ok values
    | none => .error "requested values from closed return channel"
  | .seq sources, n => seqReceive sources n

/-! ### Building a method-args matcher from raw inputs (matcher.go)

`NewMatcherForMethod(t, m, matchers...)`.  A raw input is classified the way
the Go code does with reflection: a value of kind `Func` (a callable
predicate), a value that is already a `MethodArgsMatcher`, a value that is a
`SingleArgMatcher`, or any other value (coerced by `Eql` to structural
equality).  The reflective `ForMethod` validation at the end is the
`validate` parameter; the empty-input branch returns `All()` before that
validation runs. -/

inductive RawInput (α : Type) where
  | funcPred (f : List α → Bool)
  | methodArgs (f : List α → Bool)
  | single (f : α → Bool)
  | plain (v : α)

/-- The matcher produced by `NewMatcherForMethod`: `Func(...)`, `Args(...)`,
a pre-built matcher used verbatim, or the `All()` combinator. -/
inductive BuiltMatcher (α : Type) where
  | func (f : List α → Bool)
  | args (ms : List (α → Bool))
  | verbatim (f : List α → Bool)
  | allOf (ms : List (List α → Bool))

/-- Go `argumentsMatcher.Matches`: positional single-argument matchers applied
up to the shorter of the two lists; surplus argument positions are
implicitly accepted. -/
def argsMatches (ms : List (α → Bool)) (args : List α) : Bool :=
  (ms.zip args).all fun p => p.1 p.2

/-- Go `Matches` of each produced matcher kind (`funcMatcher.Matches`,
`argumentsMatcher.Matches`, `andMatcher.Matches` for `All`). -/
def BuiltMatcher.Matches : BuiltMatcher α → List α → Bool
  | .func f, xs => f xs
  | .args ms, xs => argsMatches ms xs
  | .verbatim f, xs => f xs
  | .allOf ms, xs => ms.all fun m => m xs

/-- Go `genericSingleArgumentMatcher`: a `SingleArgMatcher` is used as is, a
func-kind value becomes `Func` (whose single-argument `Matches` applies the
predicate to the one argument), anything else is coerced to `Eql`
(structural equality).  A method-args matcher used in single-argument
position likewise has its `Matches` applied to the one argument. -/
def genericSingleArgumentMatcher [BEq α] : RawInput α → (α → Bool)
  | .single f => f
  | .funcPred f => fun a => f [a]
  | .methodArgs f => fun a => f [a]
  | .plain v => fun a => a == v

/-- Go `NewMatcherForMethod`: fatal for a method with no arguments; an empty
input list returns `All()` directly (before any validation); a leading
func-kind input becomes `Func` (remaining inputs are its explanation); more
than one input is coerced positionally into `Args`; a sole input that is
already a method-args matcher is used verbatim; any other sole input is
coerced and wrapped in `Args`.  The constructed matcher is then validated by
its own `ForMethod` (the `validate` parameter). -/
def NewMatcherForMethod [BEq α] (numIn : Nat)
    (validate : BuiltMatcher α → Except String Unit)
    (matchers : List (RawInput α)) : Except String (BuiltMatcher α) :=
  if numIn == 0 then
    .error "Cannot build matcher for method which takes no arguments"
  else
    match matchers with
    | [] => .ok (.allOf [])
    | m0 :: rest =>
      let result : BuiltMatcher α :=
        match m0 with
        | .funcPred f => .func f
        | _ =>
          if rest.isEmpty then
            match m0 with
            | .methodArgs f => .verbatim f
            | _ => .args [genericSingleArgumentMatcher m0]
          else .args ((m0 :: rest).map genericSingleArgumentMatcher)
      match validate result with
      | .ok _ => .ok result
      | .error e => .error e

/-! ### Concrete example states (mirroring the repository's tests) -/

/-- Run a list of invocations (method index, arguments) in order. -/
def runCalls (w : World α ρ) : List (Nat × List α) → World α ρ
  | [] => w
  | op :: rest => runCalls (w.invoke op.1 op.2).1 rest

/-- A recorded call with no arguments, for concrete view examples. -/
def rcS (t : Nat) : RecordedCall String := ⟨t, []⟩

/-- TestInvoke_SkipsCompleteMock with `Once`: a mock expecting exactly one
call returning 1, then a catchall stub returning 99. -/
def exactlyOnceWorld : World String Int :=
  { methods := [{ calls := [.mock none (some [1]) (some (.exactly 1)) 0 [],
                            .stub none (some [99])],
                  defaultReturns := [0], defaultCall := none }],
    tick := 0 }

/-- The mock of `exactlyOnceWorld` before any invocation. -/
def onceMock : RegCall String Int :=
  .mock none (some [1]) (some (.exactly 1)) 0 []

/-- TestRunsMocksInSequence: method 0 is d1.call with mock m1 (returns 1,
exactly once), a mock returning 3 configured After the mock of method 1, and
a catchall mock returning 99 with no expectation; method 1 is d2.test with
mock m2 (returns 2, exactly once) configured After m1. -/
def seqWorld : World String Int :=
  { methods := [{ calls := [.mock none (some [1]) (some (.exactly 1)) 0 [],
                            .mock none (some [3]) (some (.exactly 1)) 0 [(1, 0)],
                            .mock none (some [99]) none 0 []],
                  defaultReturns := [0], defaultCall := none },
                { calls := [.mock none (some [2]) (some (.exactly 1)) 0 [(0, 0)]],
                  defaultReturns := [0, 0], defaultCall := none }],
    tick := 0 }

/-- The After-configured mock of `seqWorld` (registration (0,1)). -/
def afterMock : RegCall String Int :=
  .mock none (some [3]) (some (.exactly 1)) 0 [(1, 0)]

/-- TestTestDouble_Stub: stub S1 matching "second" returning 1 registered
before catchall stub S2 returning 99. -/
def twoStubWorld : World String Int :=
  { methods := [{ calls := [.stub (some (fun xs => xs == ["second"])) (some [1]),
                            .stub none (some [99])],
                  defaultReturns := [0], defaultCall := none }],
    tick := 0 }

/-- A double with one method and no registrations yet. -/
def emptyMethodWorld : World String Int :=
  { methods := [{ calls := [], defaultReturns := [0], defaultCall := none }],
    tick := 0 }

/-- State of `emptyMethodWorld` after its first `TestDouble.Spy`. -/
def spiedWorld : World String Int :=
  { methods := [{ calls := [.spy none []], defaultReturns := [0],
                  defaultCall := none }],
    tick := 0 }

/-- A concrete fake implementation returning the argument count. -/
def lenImpl : List String → List Int := fun xs => [(xs.length : Int)]

/-- State of `emptyMethodWorld` after `TestDouble.Fake` with `lenImpl`. -/
def fakedWorld : World String Int :=
  { methods := [{ calls := [.fake lenImpl []], defaultReturns := [0],
                  defaultCall := none }],
    tick := 0 }

/-! ### Theorems -/

/-- C4: for every integer count the Expectation variants satisfy exactly the
table of spec section 4.1: Exactly(n) is Met iff count = n and Complete iff
count ≥ n; Never is Met iff count = 0 and is not a Completion; AtLeast(n) is
Met iff count ≥ n and is not a Completion; AtMost(n) (= Between(0,n)) is Met
iff 0 ≤ count ≤ n and Complete iff count ≥ n; Between(lo,hi) is Met iff
lo ≤ count ≤ hi and Complete iff count ≥ hi; in particular Between(5,11) is
Met at 5 and 11, not at 4 or 12, and Complete at 11 but not at 10. -/
theorem c4_expectation_table (n lo hi count : Int) :
    ((Expectation.exactly n).met count = true ↔ count = n)
    ∧ ((Expectation.exactly n).completeB count = true ↔ count ≥ n)
    ∧ (Expectation.exactly n).isCompletion = true
    ∧ (Expectation.never.met count = true ↔ count = 0)
    ∧ Expectation.never.isCompletion = false
    ∧ ((Expectation.atLeast n).met count = true ↔ count ≥ n)
    ∧ (Expectation.atLeast n).isCompletion = false
    ∧ (AtMost n = Expectation.between 0 n)
    ∧ ((AtMost n).met count = true ↔ 0 ≤ count ∧ count ≤ n)
    ∧ ((AtMost n).completeB count = true ↔ count ≥ n)
    ∧ (AtMost n).isCompletion = true
    ∧ ((Expectation.between lo hi).met count = true ↔ lo ≤ count ∧ count ≤ hi)
    ∧ ((Expectation.between lo hi).completeB count = true ↔ count ≥ hi)
    ∧ ((Expectation.between 5 11).met 5 = true
        ∧ (Expectation.between 5 11).met 11 = true
        ∧ (Expectation.between 5 11).met 4 = false
        ∧ (Expectation.between 5 11).met 12 = false
        ∧ (Expectation.between 5 11).completeB 11 = true
        ∧ (Expectation.between 5 11).completeB 10 = false) := by
  refine ⟨?_, ?_, rfl, ?_, rfl, ?_, rfl, rfl, ?_, ?_, rfl, ?_, ?_, by decide⟩ <;>
    simp [Expectation.met, Expectation.completeB, AtMost]

/-- C7: Slice(from,to) on a view of length l fatally errors exactly when
from > to or from < 0 or to < 0; otherwise it returns the half-open range of
positions [from, to) with bounds beyond the view length clamping to the view
length, and in particular an empty result whenever from ≥ l. -/
theorem c7_slice_clamps (l : List (RecordedCall α)) (f t : Int) :
    ((f > t ∨ f < 0 ∨ t < 0) → Slice l f t = .error "Invalid Slice of RecordedCalls")
    ∧ (¬(f > t ∨ f < 0 ∨ t < 0) →
        Slice l f t = .ok ((l.take (min t.toNat l.length)).drop f.toNat))
    ∧ (0 ≤ f → f ≤ t → l.length ≤ f.toNat → Slice l f t = .ok []) := by
  refine ⟨?_, ?_, ?_⟩
  · intro h
    simp only [Slice]
    rw [if_pos]
    simp only [Bool.or_eq_true, decide_eq_true_eq]
    omega
  · intro h
    push_neg at h
    obtain ⟨hft, hf, ht⟩ := h
    simp only [Slice]
    rw [if_neg (by simp only [Bool.or_eq_true, decide_eq_true_eq]; omega)]
    by_cases hfl : f > (l.length : Int)
    · rw [if_pos (by exact_mod_cast hfl)]
      have : l.length < f.toNat := by omega
      have hlen : (l.take (min t.toNat l.length)).length ≤ l.length := by
        simp [List.length_take]
      rw [List.drop_eq_nil_of_le (by omega)]
    · rw [if_neg (by exact_mod_cast hfl)]
      by_cases htl : t > (l.length : Int)
      · rw [if_pos (by exact_mod_cast htl)]
        have : min t.toNat l.length = l.length := by omega
        rw [this, List.take_length]
      · rw [if_neg (by exact_mod_cast htl)]
        have : min t.toNat l.length = t.toNat := by omega
        rw [this]
  · intro hf hft hl
    have h2 : ¬(f > t ∨ f < 0 ∨ t < 0) := by omega
    simp only [Slice]
    rw [if_neg (by simp only [Bool.or_eq_true, decide_eq_true_eq]; omega)]
    by_cases hfl : f > (l.length : Int)
    · rw [if_pos (by exact_mod_cast hfl)]
    · rw [if_neg (by exact_mod_cast hfl)]
      have hfn : f.toNat = l.length := by omega
      by_cases htl : t > (l.length : Int)
      · rw [if_pos (by exact_mod_cast htl)]
        rw [List.drop_eq_nil_of_le (by omega)]
      · rw [if_neg (by exact_mod_cast htl)]
        rw [List.drop_eq_nil_of_le (by simp [List.length_take]; omega)]

/-- Witness for C7 at concrete inputs: slicing three recorded calls with
from = 1, to = 5 clamps to the last two entries (the repository test
spy.Slice(0,5) relies on this clamping). -/
theorem c7_witness :
    ¬((1 : Int) > 5 ∨ (1 : Int) < 0 ∨ (5 : Int) < 0)
    ∧ Slice [rcS 1, rcS 2, rcS 3] 1 5 =
        .ok (([rcS 1, rcS 2, rcS 3].take (min (5 : Int).toNat 3)).drop (1 : Int).toNat)
    ∧ (0 : Int) ≤ 7 ∧ (7 : Int) ≤ 9 ∧ [rcS 1, rcS 2, rcS 3].length ≤ (7 : Int).toNat
    ∧ Slice [rcS 1, rcS 2, rcS 3] 7 9 = .ok [] := by
  refine ⟨by decide, ?_, by decide, by decide, by decide, ?_⟩
  · exact (c7_slice_clamps [rcS 1, rcS 2, rcS 3] 1 5).2.1 (by decide)
  · exact (c7_slice_clamps [rcS 1, rcS 2, rcS 3] 7 9).2.2 (by decide) (by decide)
      (by decide)

/-- C6 counterexample: building a method-args matcher from an empty raw
input list does NOT fail the test; for a one-argument method (regardless of
the validation hook) it returns the vacuous All() combinator, which matches
any arguments.  This also agrees with the repository's own test case
"NoMatchers", which asserts that NewMatcherForMethod with no matchers
matches the argument "ttt". -/
theorem c6_counterexample :
    NewMatcherForMethod 1 (fun _ => Except.ok ()) ([] : List (RawInput String))
      = .ok (.allOf [])
    ∧ BuiltMatcher.Matches (.allOf ([] : List (List String → Bool))) ["ttt"] = true :=
  ⟨rfl, rfl⟩

/-- C6 amended: constructing a method-args matcher from an empty raw input
list returns the vacuous All() matcher (which accepts every argument tuple)
without running any validation; the construction fails the test immediately
only when the method itself declares no arguments, and that failure happens
for every input list, empty or not. -/
theorem c6_empty_input_all [BEq α] (numIn : Nat)
    (validate : BuiltMatcher α → Except String Unit)
    (matchers : List (RawInput α)) :
    (NewMatcherForMethod numIn validate ([] : List (RawInput α)) =
      if numIn == 0 then
        .error "Cannot build matcher for method which takes no arguments"
      else .ok (.allOf []))
    ∧ (NewMatcherForMethod 0 validate matchers =
        .error "Cannot build matcher for method which takes no arguments")
    ∧ (∀ xs : List α, BuiltMatcher.Matches (.allOf []) xs = true) := by
  refine ⟨?_, ?_, fun _ => rfl⟩
  · by_cases h : numIn == 0
    · simp only [NewMatcherForMethod, if_pos h]
    · simp only [NewMatcherForMethod, if_neg h]
  · rfl

/-- C5 counterexample: fixedReturnValues.Receive is stateless and never
returns an error (so under the claim's reading a Sequence over it is never
exhausted and every relayed receive keeps succeeding with its tuple), yet
the code's Sequence(Values(33)) already fails with the no-more-values error
on its second Receive, because a non-multi-valued source is received exactly
once rather than drained until a first error. -/
theorem c5_counterexample :
    fixedReceive ([33] : List Int) = .ok [33]
    ∧ RV.receiveAt (RV.fixed ([33] : List Int)) 0 = .ok [33]
    ∧ RV.receiveAt (RV.fixed ([33] : List Int)) 1 = .ok [33]
    ∧ RV.multiValued (RV.fixed ([33] : List Int)) = false
    ∧ RV.receiveAt (RV.seq [RV.fixed ([33] : List Int)]) 0 = .ok [33]
    ∧ RV.receiveAt (RV.seq [RV.fixed ([33] : List Int)]) 1
        = .error "no available values" :=
  ⟨rfl, rfl, rfl, rfl, rfl, rfl⟩

/-- C5 amended: the drainer relays, in strict list order, for each source:
its full receive-until-first-error stream when the source is multi-valued
(channel-backed or sequential), and exactly one receive otherwise (a fixed
source, whose Receive never errors, relays its single tuple once); after the
relayed stream is exhausted every further Receive fails with the
no-more-values error; and Sequence(Sequence(Values(33), Values(55)),
Values(44)) yields receives 33, 55, 44 and then the error. -/
theorem c5_sequential_order (sources ss : List (RV ρ)) (q : List (List ρ))
    (v : List ρ) (n : Nat) :
    emittedAll sources = (sources.map RV.emitted).flatten
    ∧ RV.emitted (RV.fixed v) = [v]
    ∧ fixedReceive v = .ok v
    ∧ RV.multiValued (RV.fixed v) = false
    ∧ (RV.emitted (RV.channel q) = q ∧ RV.multiValued (RV.channel q) = true)
    ∧ (RV.emitted (RV.seq ss) = emittedAll ss
        ∧ RV.multiValued (RV.seq ss) = true)
    ∧ (∀ k, ∀ hk : k < (emittedAll sources).length,
        seqReceive sources k = .ok ((emittedAll sources).get ⟨k, hk⟩))
    ∧ ((emittedAll sources).length ≤ n →
        seqReceive sources n = .error "no available values")
    ∧ seqReceive [RV.seq [RV.fixed [(33 : Int)], RV.fixed [55]], RV.fixed [44]] 0
        = .ok [33]
    ∧ seqReceive [RV.seq [RV.fixed [(33 : Int)], RV.fixed [55]], RV.fixed [44]] 1
        = .ok [55]
    ∧ seqReceive [RV.seq [RV.fixed [(33 : Int)], RV.fixed [55]], RV.fixed [44]] 2
        = .ok [44]
    ∧ seqReceive [RV.seq [RV.fixed [(33 : Int)], RV.fixed [55]], RV.fixed [44]] 3
        = .error "no available values" := by
  refine ⟨?_, rfl, rfl, rfl, ⟨rfl, rfl⟩, ⟨rfl, rfl⟩, ?_, ?_, rfl, rfl, rfl, rfl⟩
  · induction sources with
    | nil => rfl
    | cons s rest ih => simp [emittedAll, ih]
  · intro k hk
    simp only [seqReceive]
    rw [List.getElem?_eq_getElem hk]
    simp [List.get_eq_getElem]
  · intro hn
    simp only [seqReceive]
    rw [List.getElem?_eq_none hn]

/-- Witness for C5's amended theorem: the relayed stream of
Sequence(Values(7)) has length 1, so receive number 1 (the second receive)
errors, and receive 0 yields the tuple. -/
theorem c5_witness :
    (0 : Nat) < (emittedAll [RV.fixed [(7 : Int)]]).length
    ∧ seqReceive [RV.fixed [(7 : Int)]] 0
        = .ok ((emittedAll [RV.fixed [(7 : Int)]]).get ⟨0, by decide⟩)
    ∧ (emittedAll [RV.fixed [(7 : Int)]]).length ≤ 1
    ∧ seqReceive [RV.fixed [(7 : Int)]] 1 = .error "no available values" :=
  ⟨by decide,
   (c5_sequential_order [RV.fixed [(7 : Int)]] [] [] [] 1).2.2.2.2.2.2.1 0 (by decide),
   by decide,
   (c5_sequential_order [RV.fixed [(7 : Int)]] [] [] [] 1).2.2.2.2.2.2.2.1 (by decide)⟩

theorem findFirstIdx_eq_some_iff (p : β → Bool) (l : List β) :
    ∀ i, findFirstIdx p l = some i ↔
      (∃ x, l[i]? = some x ∧ p x = true)
      ∧ ∀ j, j < i → ∀ y, l[j]? = some y → p y = false := by
  induction l with
  | nil => intro i; simp [findFirstIdx]
  | cons a as ih =>
    intro i
    simp only [findFirstIdx]
    by_cases hpa : p a = true
    · rw [if_pos hpa]
      constructor
      · intro h
        obtain rfl : 0 = i := by injection h
        exact ⟨⟨a, by simp, hpa⟩, fun j hj => absurd hj (by omega)⟩
      · rintro ⟨-, hmin⟩
        rcases Nat.eq_zero_or_pos i with rfl | hpos
        · rfl
        · exact absurd hpa (by simpa using hmin 0 hpos a (by simp))
    · rw [if_neg hpa]
      constructor
      · intro h
        obtain ⟨k, hk, rfl⟩ : ∃ k, findFirstIdx p as = some k ∧ i = k + 1 := by
          cases hfa : findFirstIdx p as with
          | none => rw [hfa] at h; cases h
          | some k =>
            rw [hfa] at h
            simp only [Option.map_some', Option.some.injEq] at h
            exact ⟨k, rfl, by omega⟩
        obtain ⟨⟨x, hx, hpx⟩, hmin⟩ := (ih k).mp hk
        refine ⟨⟨x, by simpa using hx, hpx⟩, ?_⟩
        intro j hj y hy
        cases j with
        | zero =>
          obtain rfl : a = y := by simpa using hy
          simpa using hpa
        | succ j2 => exact hmin j2 (by omega) y (by simpa using hy)
      · rintro ⟨⟨x, hx, hpx⟩, hmin⟩
        cases i with
        | zero =>
          obtain rfl : a = x := by simpa using hx
          exact absurd hpx hpa
        | succ i2 =>
          have hk : findFirstIdx p as = some i2 :=
            (ih i2).mpr ⟨⟨x, by simpa using hx, hpx⟩,
              fun j hj y hy => hmin (j + 1) (by omega) y (by simpa using hy)⟩
          rw [hk]; rfl

theorem findFirstIdx_append_of_none (p : β → Bool) (l l2 : List β)
    (h : findFirstIdx p l = none) :
    findFirstIdx p (l ++ l2) = (findFirstIdx p l2).map (· + l.length) := by
  induction l with
  | nil => cases hf : findFirstIdx p l2 <;> simp [hf]
  | cons a as ih =>
    simp only [findFirstIdx] at h
    by_cases hpa : p a = true
    · rw [if_pos hpa] at h; cases h
    · rw [if_neg hpa] at h
      have has : findFirstIdx p as = none := by
        cases hfa : findFirstIdx p as with
        | none => rfl
        | some k => rw [hfa] at h; cases h
      have step : (a :: as) ++ l2 = a :: (as ++ l2) := rfl
      rw [step]
      simp only [findFirstIdx, if_neg hpa, ih has]
      cases hf : findFirstIdx p l2 with
      | none => rfl
      | some k =>
        simp only [Option.map_some', Option.some.injEq, List.length_cons]
        omega

theorem findFirstIdx_of_any_false (p : β → Bool) (l : List β)
    (h : l.any p = false) : findFirstIdx p l = none := by
  induction l with
  | nil => rfl
  | cons a as ih =>
    simp only [List.any_cons, Bool.or_eq_false_iff] at h
    have hpa : ¬p a = true := by rw [h.1]; exact Bool.false_ne_true
    simp only [findFirstIdx, if_neg hpa, ih h.2]
    rfl

theorem listModify_getElem? (f : β → β) (l : List β) :
    ∀ i j, (listModify f l i)[j]? = if i = j then (l[j]?).map f else l[j]? := by
  induction l with
  | nil => intro i j; simp [listModify]
  | cons a as ih =>
    intro i j
    cases i with
    | zero =>
      cases j with
      | zero => simp [listModify]
      | succ j2 => simp [listModify]
    | succ i2 =>
      cases j with
      | zero => simp [listModify, Nat.succ_ne_zero]
      | succ j2 =>
        simp only [listModify, List.getElem?_cons_succ, ih i2 j2]
        by_cases hij : i2 = j2 <;> simp [hij]

/-- C2: match(args) scans the registered method calls in insertion order and
returns the index of the first registration whose matches(args) is true (the
chosen index carries a matching registration and every earlier registration
rejects the arguments); concretely, with stub S1 Matching("second")
Returning(1) registered before catchall stub S2 Returning(99), invoking with
"second" (which both stubs match) produces S1's value 1, and invoking with
"first" produces 99. -/
theorem c2_first_match_wins :
    (∀ (w : World α ρ) (mi : Nat) (args : List α) (ms : MethodState α ρ) (i : Nat),
        w.methods[mi]? = some ms →
        findFirstIdx (fun r => r.matches w args) ms.calls = some i →
        w.methodMatch mi args = .ok (w, i)
        ∧ (∃ r, ms.calls[i]? = some r ∧ r.matches w args = true)
        ∧ (∀ j, j < i → ∀ r, ms.calls[j]? = some r → r.matches w args = false))
    ∧ RegCall.matches twoStubWorld
        (.stub (some (fun xs => xs == ["second"])) (some [1])) ["second"] = true
    ∧ RegCall.matches twoStubWorld
        (.stub none (some ([99] : List Int))) ["second"] = true
    ∧ twoStubWorld.methodMatch 0 ["second"] = .ok (twoStubWorld, 0)
    ∧ (twoStubWorld.invoke 0 ["second"]).2 = .ok [1]
    ∧ (twoStubWorld.invoke 0 ["first"]).2 = .ok [99] := by
  refine ⟨?_, rfl, rfl, rfl, rfl, rfl⟩
  intro w mi args ms i hm hf
  obtain ⟨⟨r, hr, hpr⟩, hmin⟩ := (findFirstIdx_eq_some_iff _ _ _).mp hf
  exact ⟨by simp only [World.methodMatch, hm, hf], ⟨r, hr, hpr⟩, hmin⟩

/-- Witness for C2 at a concrete input: on `twoStubWorld` with argument
"first" only the catchall stub matches, and match returns index 1. -/
theorem c2_witness :
    twoStubWorld.methodMatch 0 ["first"] = .ok (twoStubWorld, 1) :=
  ((c2_first_match_wins (α := String) (ρ := Int)).1 twoStubWorld 0 ["first"]
    { calls := [.stub (some (fun xs => xs == ["second"])) (some [1]),
                .stub none (some [99])],
      defaultReturns := [0], defaultCall := none } 1 rfl rfl).1

/-- C1: a mock registration matches exactly when its argument matcher
accepts the arguments AND its expectation is not complete at the current
count (an expectation that is not a Completion, or a nil expectation, is
never complete) AND every mock in its after set is complete.  Consequently a
mock with Expect(Exactly(1)) matches exactly once — the second identical
invocation falls through to the next registration — and a mock configured
After(otherMock) never matches until otherMock's expectation has reached its
upper bound. -/
theorem c1_mock_matching :
    (∀ (w : World α ρ) (matcher : Option (List α → Bool))
        (rets : Option (List ρ)) (expect : Option Expectation) (count : Int)
        (after : List (Nat × Nat)) (args : List α),
        RegCall.matches w (.mock matcher rets expect count after) args
          = (stubMatches matcher args && !(mockComplete expect count)
              && after.all w.mockCompleteAt))
    ∧ (∀ count, mockComplete none count = false)
    ∧ (∀ n count, mockComplete (some (.atLeast n)) count = false)
    ∧ (∀ count, mockComplete (some .never) count = false)
    ∧ (∀ (e : Expectation) (count : Int),
        mockComplete (some e) count = (e.isCompletion && e.completeB count))
    ∧ (exactlyOnceWorld.invoke 0 ["x"]).2 = .ok [1]
    ∧ (exactlyOnceWorld.invoke 0 ["x"]).1.methodMatch 0 ["x"]
        = .ok ((exactlyOnceWorld.invoke 0 ["x"]).1, 1)
    ∧ ((exactlyOnceWorld.invoke 0 ["x"]).1.invoke 0 ["x"]).2 = .ok [99]
    ∧ RegCall.matches seqWorld afterMock ["second"] = false
    ∧ RegCall.matches (runCalls seqWorld [(0, ["first"]), (0, ["second"])])
        afterMock ["second"] = false
    ∧ RegCall.matches
        (runCalls seqWorld [(0, ["first"]), (0, ["second"]), (1, ["t"])])
        afterMock ["third"] = true
    ∧ (seqWorld.invoke 0 ["first"]).2 = .ok [1]
    ∧ ((runCalls seqWorld [(0, ["first"])]).invoke 0 ["second"]).2 = .ok [99]
    ∧ ((runCalls seqWorld [(0, ["first"]), (0, ["second"])]).invoke 1 ["t"]).2
        = .ok [2]
    ∧ ((runCalls seqWorld [(0, ["first"]), (0, ["second"]), (1, ["t"])]).invoke
        0 ["third"]).2 = .ok [3] := by
  refine ⟨fun _ _ _ _ _ _ _ => rfl, fun _ => rfl, fun _ _ => rfl, fun _ => rfl,
    ?_, rfl, rfl, rfl, rfl, rfl, rfl, rfl, rfl, rfl, rfl⟩
  intro e count
  cases e <;> simp [mockComplete, Expectation.completeB, Expectation.isCompletion]

/-- C8: calling Spy(methodName) twice returns the identical registration:
whenever the first call succeeds with registration index i and state w1, the
second call returns exactly the same index on the unchanged state w1 (no
second registration is appended), and index i holds a registration
satisfying the spy interface — the shared recorded-call log. -/
theorem c8_spy_idempotent (w : World α ρ) (mi : Nat) (w1 : World α ρ) (i : Nat)
    (h : w.spyOn mi = .ok (w1, i)) :
    w1.spyOn mi = .ok (w1, i)
    ∧ ∃ ms1, w1.methods[mi]? = some ms1
        ∧ ∃ r, ms1.calls[i]? = some r ∧ r.isSpyCall = true := by
  rcases hm : w.methods[mi]? with _ | ms
  · exfalso
    simp only [World.spyOn, hm] at h
    cases h
  · rcases hf : findFirstIdx RegCall.isSpyCall ms.calls with _ | k
    · have hspy : w.spyOn mi =
          .ok (w.modifyMethod mi fun m =>
                { m with calls := m.calls ++ [.spy none []] },
               ms.calls.length) := by
        simp only [World.spyOn, hm, hf]
      rw [hspy] at h
      injection h with h2
      obtain ⟨rfl, rfl⟩ : _ = w1 ∧ _ = i :=
        ⟨congrArg Prod.fst h2, congrArg Prod.snd h2⟩
      have hm1 : (w.modifyMethod mi fun m =>
          { m with calls := m.calls ++ [.spy none []] }).methods[mi]?
            = some { ms with calls := ms.calls ++ [.spy none []] } := by
        simp [World.modifyMethod, listModify_getElem?, hm]
      refine ⟨?_, _, hm1, ⟨.spy none [], ?_, rfl⟩⟩
      · simp only [World.spyOn, hm1, findFirstIdx_append_of_none _ _ _ hf]
        simp [findFirstIdx, RegCall.isSpyCall]
      · exact List.getElem?_concat_length ms.calls (.spy none [])
    · have hspy : w.spyOn mi = .ok (w, k) := by
        simp only [World.spyOn, hm, hf]
      rw [hspy] at h
      injection h with h2
      obtain ⟨rfl, rfl⟩ : _ = w1 ∧ _ = i :=
        ⟨congrArg Prod.fst h2, congrArg Prod.snd h2⟩
      obtain ⟨⟨r, hr, hpr⟩, -⟩ := (findFirstIdx_eq_some_iff _ _ _).mp hf
      exact ⟨by simp only [World.spyOn, hm, hf], ms, hm, r, hr, hpr⟩

/-- Witness for C8: on a double with one unregistered method, the first Spy
appends the spy registration at index 0 and the second Spy returns the same
index on the unchanged state. -/
theorem c8_witness :
    emptyMethodWorld.spyOn 0 = .ok (spiedWorld, 0)
    ∧ spiedWorld.spyOn 0 = .ok (spiedWorld, 0) :=
  ⟨rfl, (c8_spy_idempotent emptyMethodWorld 0 spiedWorld 0 rfl).1⟩

/-- C10: registering a Fake and then calling Spy on the same method does not
fail and creates no new registration — Spy returns the fake's own index on
the unchanged state (a fake satisfies the spy interface, sharing its
recorded-call log) — while the asymmetric counterpart, registering a Fake on
a method that already has a spy-interface registration, fails fatally. -/
theorem c10_spy_finds_fake (w : World α ρ) (mi : Nat) (impl : List α → List ρ)
    (w1 : World α ρ) (i : Nat) (h : w.fakeOn mi impl = .ok (w1, i)) :
    w1.spyOn mi = .ok (w1, i)
    ∧ (∃ ms1, w1.methods[mi]? = some ms1 ∧ ms1.calls[i]? = some (.fake impl []))
    ∧ (∀ impl2, w1.fakeOn mi impl2
        = .error "unreachable fake which has previously registered a spy") := by
  rcases hm : w.methods[mi]? with _ | ms
  · exfalso
    simp only [World.fakeOn, hm] at h
    cases h
  · by_cases ha : ms.calls.any RegCall.isSpyCall = true
    · exfalso
      simp only [World.fakeOn, hm, if_pos ha] at h
      cases h
    · have hfake : w.fakeOn mi impl =
          .ok (w.modifyMethod mi fun m =>
                { m with calls := m.calls ++ [.fake impl []] },
               ms.calls.length) := by
        simp only [World.fakeOn, hm, if_neg ha]
      rw [hfake] at h
      injection h with h2
      obtain ⟨rfl, rfl⟩ : _ = w1 ∧ _ = i :=
        ⟨congrArg Prod.fst h2, congrArg Prod.snd h2⟩
      have hm1 : (w.modifyMethod mi fun m =>
          { m with calls := m.calls ++ [.fake impl []] }).methods[mi]?
            = some { ms with calls := ms.calls ++ [.fake impl []] } := by
        simp [World.modifyMethod, listModify_getElem?, hm]
      have hnone : findFirstIdx RegCall.isSpyCall ms.calls = none :=
        findFirstIdx_of_any_false _ _ (by simpa using ha)
      refine ⟨?_, ⟨_, hm1, ?_⟩, ?_⟩
      · simp only [World.spyOn, hm1, findFirstIdx_append_of_none _ _ _ hnone]
        simp [findFirstIdx, RegCall.isSpyCall]
      · exact List.getElem?_concat_length ms.calls (.fake impl [])
      · intro impl2
        simp only [World.fakeOn, hm1]
        rw [if_pos (by simp [RegCall.isSpyCall])]

/-- Witness for C10: faking the sole method of an unregistered double
succeeds at index 0; Spy then returns that same fake registration, and a
second Fake on the method fails fatally. -/
theorem c10_witness :
    emptyMethodWorld.fakeOn 0 lenImpl = .ok (fakedWorld, 0)
    ∧ fakedWorld.spyOn 0 = .ok (fakedWorld, 0)
    ∧ fakedWorld.fakeOn 0 lenImpl
        = .error "unreachable fake which has previously registered a spy" :=
  ⟨rfl, (c10_spy_finds_fake emptyMethodWorld 0 lenImpl fakedWorld 0 rfl).1,
   (c10_spy_finds_fake emptyMethodWorld 0 lenImpl fakedWorld 0 rfl).2.2 lenImpl⟩

theorem ticksSorted_iff_chain (l : List (RecordedCall α)) :
    ticksSorted l = true ↔ l.Chain' fun a b => a.tick < b.tick := by
  induction l with
  | nil => simp [ticksSorted]
  | cons a as ih =>
    cases as with
    | nil => simp [ticksSorted]
    | cons b bs =>
      rw [List.chain'_cons, ← ih]
      simp [ticksSorted]

theorem ticksSorted_iff_pairwise (l : List (RecordedCall α)) :
    ticksSorted l = true ↔ l.Pairwise fun a b => a.tick < b.tick := by
  rw [ticksSorted_iff_chain]
  exact @List.chain'_iff_pairwise (RecordedCall α)
    (fun a b => a.tick < b.tick)
    ⟨fun _ _ _ hab hbc => Nat.lt_trans hab hbc⟩ l

theorem sortSearchAux_eq (f : Nat → Bool) (i j : Nat) :
    sortSearchAux f i j =
      if i < j then
        if f ((i + j) / 2) then sortSearchAux f i ((i + j) / 2)
        else sortSearchAux f ((i + j) / 2 + 1) j
      else i := by
  rw [sortSearchAux]
  by_cases h : i < j
  · rw [dif_pos h, if_pos h]
  · rw [dif_neg h, if_neg h]

theorem sortSearchAux_spec (f : Nat → Bool) (n : Nat)
    (mono : ∀ a b, a ≤ b → b < n → f a = true → f b = true) :
    ∀ d i j, i ≤ j → j - i ≤ d → j ≤ n →
      (∀ k, k < i → f k = false) →
      (∀ k, j ≤ k → k < n → f k = true) →
      (∀ k, k < sortSearchAux f i j → f k = false)
      ∧ (∀ k, sortSearchAux f i j ≤ k → k < n → f k = true)
      ∧ sortSearchAux f i j ≤ j := by
  intro d
  induction d with
  | zero =>
    intro i j hij0 hd hjn hlow hhigh
    have hij : ¬i < j := by omega
    rw [sortSearchAux_eq, if_neg hij]
    exact ⟨hlow, fun k hk hkn => hhigh k (by omega) hkn, by omega⟩
  | succ d ih =>
    intro i j hij0 hd hjn hlow hhigh
    by_cases hij : i < j
    · rw [sortSearchAux_eq, if_pos hij]
      have hmi : i ≤ (i + j) / 2 := by omega
      have hmj : (i + j) / 2 < j := by omega
      by_cases hfm : f ((i + j) / 2) = true
      · rw [if_pos hfm]
        have := ih i ((i + j) / 2) (by omega) (by omega) (by omega) hlow
          (fun k hk hkn => mono ((i + j) / 2) k hk hkn hfm)
        exact ⟨this.1, this.2.1, by omega⟩
      · rw [if_neg hfm]
        refine ih ((i + j) / 2 + 1) j (by omega) (by omega) hjn ?_ hhigh
        intro k hk
        cases hfk : f k with
        | false => rfl
        | true =>
          exact absurd (mono k ((i + j) / 2) (by omega) (by omega) hfk) hfm
    · rw [sortSearchAux_eq, if_neg hij]
      exact ⟨hlow, fun k hk hkn => hhigh k (by omega) hkn, by omega⟩

theorem sortSearch_spec (f : Nat → Bool) (n : Nat)
    (mono : ∀ a b, a ≤ b → b < n → f a = true → f b = true) :
    (∀ k, k < sortSearch n f → f k = false)
    ∧ (∀ k, sortSearch n f ≤ k → k < n → f k = true)
    ∧ sortSearch n f ≤ n :=
  sortSearchAux_spec f n mono n 0 n (by omega) (by omega) (by omega)
    (fun k hk => absurd hk (by omega)) (fun k hk hkn => absurd hkn (by omega))

theorem tickAt_eq_of_getElem? (cs : List (RecordedCall α)) (k : Nat)
    (x : RecordedCall α) (hx : cs[k]? = some x) : tickAt cs k = x.tick := by
  simp [tickAt, hx]

theorem tickAt_mono_of_pairwise (cs : List (RecordedCall α))
    (hp : cs.Pairwise fun a b => a.tick < b.tick) :
    ∀ a b, a ≤ b → b < cs.length → tickAt cs a ≤ tickAt cs b := by
  intro a b hab hb
  rcases Nat.eq_or_lt_of_le hab with rfl | hlt
  · exact Nat.le_refl _
  · have ha : a < cs.length := by omega
    have := List.pairwise_iff_getElem.mp hp a b ha hb hlt
    have hta : tickAt cs a = cs[a].tick :=
      tickAt_eq_of_getElem? cs a _ (List.getElem?_eq_getElem ha)
    have htb : tickAt cs b = cs[b].tick :=
      tickAt_eq_of_getElem? cs b _ (List.getElem?_eq_getElem hb)
    omega

theorem filter_eq_drop_of_partition (q : β → Bool) (l : List β) :
    ∀ p, (∀ k x, k < p → l[k]? = some x → q x = false) →
      (∀ k x, p ≤ k → l[k]? = some x → q x = true) →
      l.filter q = l.drop p := by
  induction l with
  | nil => intro p _ _; simp
  | cons a as ih =>
    intro p hlow hhigh
    cases p with
    | zero =>
      rw [List.drop_zero]
      refine List.filter_eq_self.mpr fun x hx => ?_
      obtain ⟨k, hk⟩ := List.mem_iff_getElem?.mp hx
      exact hhigh k x (Nat.zero_le _) hk
    | succ p2 =>
      have ha : q a = false := hlow 0 a (Nat.succ_pos _) (by simp)
      rw [List.drop_succ_cons, List.filter_cons_of_neg (by simp [ha])]
      exact ih p2
        (fun k x hk hx => hlow (k + 1) x (by omega) (by simpa using hx))
        (fun k x hk hx => hhigh (k + 1) x (by omega) (by simpa using hx))

theorem getLast_max_of_pairwise (l : List (RecordedCall α)) :
    ∀ lastRec, (l.Pairwise fun a b => a.tick < b.tick) →
      l.getLast? = some lastRec → ∀ o ∈ l, o.tick ≤ lastRec.tick := by
  induction l with
  | nil => intro lastRec _ hl; cases hl
  | cons a as ih =>
    intro lastRec hp hl o ho
    cases as with
    | nil =>
      obtain rfl : a = lastRec := by simpa using hl
      obtain rfl : o = a := by simpa using ho
      exact Nat.le_refl _
    | cons b bs =>
      have hl2 : (b :: bs).getLast? = some lastRec := by
        rw [List.getLast?_cons_cons] at hl; exact hl
      rcases List.mem_cons.mp ho with rfl | hmem
      · have hlast_mem : lastRec ∈ b :: bs := List.mem_of_getLast?_eq_some hl2
        have := (List.pairwise_cons.mp hp).1 lastRec hlast_mem
        omega
      · exact ih lastRec (List.pairwise_cons.mp hp).2 hl2 o hmem

/-- C3: for tick-sorted views v and w over the same tick space, v.After(w)
returns exactly the entries of v whose tick strictly exceeds the maximum
tick present in w (expressed as: every entry of w has a strictly smaller
tick); when w is empty the condition is vacuous and After returns every
entry of v. -/
theorem c3_after_max_tick (cs other : List (RecordedCall α))
    (hc : ticksSorted cs = true) (ho : ticksSorted other = true) :
    After cs other
      = cs.filter fun rcd => other.all fun o => decide (o.tick < rcd.tick) := by
  rcases hlast : other.getLast? with _ | lastRec
  · obtain rfl : other = [] := List.getLast?_eq_none_iff.mp hlast
    simp [After]
  · have hpc := (ticksSorted_iff_pairwise cs).mp hc
    have hpo := (ticksSorted_iff_pairwise other).mp ho
    have hmax := getLast_max_of_pairwise other lastRec hpo hlast
    have hmem : lastRec ∈ other := List.mem_of_getLast?_eq_some hlast
    simp only [After, hlast]
    have mono : ∀ a b, a ≤ b → b < cs.length →
        decide (lastRec.tick < tickAt cs a) = true →
        decide (lastRec.tick < tickAt cs b) = true := by
      intro a b hab hb hfa
      have := tickAt_mono_of_pairwise cs hpc a b hab hb
      simp only [decide_eq_true_eq] at hfa ⊢
      omega
    obtain ⟨hlow, hhigh, hle⟩ :=
      sortSearch_spec (fun i => decide (lastRec.tick < tickAt cs i))
        cs.length mono
    set p := sortSearch cs.length fun i => decide (lastRec.tick < tickAt cs i)
      with hpdef
    have hdrop : (if p < cs.length then cs.drop p else []) = cs.drop p := by
      by_cases hp : p < cs.length
      · rw [if_pos hp]
      · rw [if_neg hp, Eq.comm, List.drop_eq_nil_iff]
        omega
    rw [hdrop]
    have hpoint : ∀ rcd ∈ cs,
        (other.all fun o => decide (o.tick < rcd.tick))
          = decide (lastRec.tick < rcd.tick) := by
      intro rcd _
      by_cases hrc : lastRec.tick < rcd.tick
      · rw [decide_eq_true hrc]
        exact List.all_eq_true.mpr fun o homem =>
          decide_eq_true (by have := hmax o homem; omega)
      · rw [decide_eq_false hrc]
        cases hall : other.all fun o => decide (o.tick < rcd.tick) with
        | false => rfl
        | true =>
          exact absurd (of_decide_eq_true (List.all_eq_true.mp hall lastRec hmem))
            hrc
    rw [List.filter_congr hpoint]
    refine (filter_eq_drop_of_partition _ cs p ?_ ?_).symm
    · intro k x hk hx
      have := hlow k hk
      rw [tickAt_eq_of_getElem? cs k x hx] at this
      exact this
    · intro k x hk hx
      have hklen : k < cs.length := by
        have := List.getElem?_eq_some_iff.mp hx
        exact this.1
      have := hhigh k hk hklen
      rw [tickAt_eq_of_getElem? cs k x hx] at this
      exact this

/-- Witness for C3 at concrete inputs: with ticks 1 < 2 < 3 in v and w
containing the entry with tick 2, After keeps exactly the tick-3 entry; with
w empty, After keeps everything. -/
theorem c3_witness :
    ticksSorted [rcS 1, rcS 2, rcS 3] = true
    ∧ ticksSorted [rcS 2] = true
    ∧ After [rcS 1, rcS 2, rcS 3] [rcS 2]
        = ([rcS 1, rcS 2, rcS 3].filter fun rcd =>
            [rcS 2].all fun o => decide (o.tick < rcd.tick))
    ∧ After [rcS 1, rcS 2, rcS 3] ([] : List (RecordedCall String))
        = ([rcS 1, rcS 2, rcS 3].filter fun rcd =>
            ([] : List (RecordedCall String)).all fun o =>
              decide (o.tick < rcd.tick)) :=
  ⟨by decide, by decide,
   c3_after_max_tick [rcS 1, rcS 2, rcS 3] [rcS 2] (by decide) (by decide),
   c3_after_max_tick [rcS 1, rcS 2, rcS 3] [] (by decide) (by decide)⟩

theorem ticksSorted_sublist (l1 l2 : List (RecordedCall α)) (hs : l1.Sublist l2)
    (h2 : ticksSorted l2 = true) : ticksSorted l1 = true := by
  rw [ticksSorted_iff_pairwise] at h2 ⊢
  exact h2.sublist hs

theorem ticksSorted_append_last (l : List (RecordedCall α)) (x : RecordedCall α)
    (hs : ticksSorted l = true) (hb : ∀ rc ∈ l, rc.tick < x.tick) :
    ticksSorted (l ++ [x]) = true := by
  induction l with
  | nil => rfl
  | cons a as ih =>
    cases as with
    | nil =>
      have := hb a (by simp)
      simp [ticksSorted, this]
    | cons b bs =>
      have hstep : ticksSorted ((a :: b :: bs) ++ [x])
          = (decide (a.tick < b.tick) && ticksSorted ((b :: bs) ++ [x])) := rfl
      have hsplit : decide (a.tick < b.tick) = true
          ∧ ticksSorted (b :: bs) = true := by
        have h0 : ticksSorted (a :: b :: bs)
            = (decide (a.tick < b.tick) && ticksSorted (b :: bs)) := rfl
        rw [h0, Bool.and_eq_true] at hs
        exact hs
      rw [hstep, Bool.and_eq_true]
      exact ⟨hsplit.1,
        ih hsplit.2 fun rc h => hb rc (List.mem_cons_of_mem _ h)⟩

theorem mem_listModify (f : β → β) (l : List β) :
    ∀ i x, x ∈ listModify f l i → x ∈ l ∨ ∃ y, l[i]? = some y ∧ x = f y := by
  induction l with
  | nil => intro i x hx; cases hx
  | cons a as ih =>
    intro i x hx
    cases i with
    | zero =>
      rcases List.mem_cons.mp hx with rfl | hmem
      · exact Or.inr ⟨a, by simp, rfl⟩
      · exact Or.inl (List.mem_cons_of_mem _ hmem)
    | succ i2 =>
      rcases List.mem_cons.mp hx with rfl | hmem
      · exact Or.inl (List.mem_cons_self _ _)
      · rcases ih i2 x hmem with h | ⟨y, hy, rfl⟩
        · exact Or.inl (List.mem_cons_of_mem _ h)
        · exact Or.inr ⟨y, by simpa using hy, rfl⟩

theorem world_inv_iff (w : World α ρ) :
    w.inv = true ↔
      ∀ ms ∈ w.methods,
        (∀ r ∈ ms.calls, ∀ rec, r.log? = some rec →
          ticksSorted rec = true ∧ ∀ rc ∈ rec, rc.tick ≤ w.tick)
        ∧ (∀ dc, ms.defaultCall = some dc → ∀ rec, dc.log? = some rec →
            rec = []) := by
  simp only [World.inv, List.all_eq_true, Bool.and_eq_true]
  constructor
  · intro h ms hms
    obtain ⟨hcalls, hdef⟩ := h ms hms
    constructor
    · intro r hr rec hrec
      have hx := hcalls r hr
      rw [hrec, Bool.and_eq_true] at hx
      refine ⟨hx.1, fun rc hrc => ?_⟩
      have := List.all_eq_true.mp hx.2 rc hrc
      simpa using this
    · intro dc hdc rec hrec
      simp only [hdc, hrec] at hdef
      simpa using hdef
  · intro h ms hms
    obtain ⟨hcalls, hdef⟩ := h ms hms
    refine ⟨fun r hr => ?_, ?_⟩
    · cases hrec : r.log? with
      | none => rfl
      | some rec =>
        obtain ⟨h1, h2⟩ := hcalls r hr rec hrec
        rw [Bool.and_eq_true]
        exact ⟨h1, List.all_eq_true.mpr fun rc hrc => by simpa using h2 rc hrc⟩
    · cases hdc : ms.defaultCall with
      | none => rfl
      | some dc =>
        cases hrec : dc.log? with
        | none => simp [hrec]
        | some rec => simp [hrec, hdef dc hdc rec hrec]

theorem methodMatch_inv (w : World α ρ) (mi : Nat) (args : List α)
    (w1 : World α ρ) (ri : Nat) (h : w.methodMatch mi args = .ok (w1, ri))
    (hw : w.inv = true) : w1.inv = true := by
  rcases hm : w.methods[mi]? with _ | ms
  · exfalso; simp only [World.methodMatch, hm] at h; cases h
  · rcases hf : findFirstIdx (fun r => r.matches w args) ms.calls with _ | k
    · rcases hd : ms.defaultCall with _ | dc
      · exfalso; simp only [World.methodMatch, hm, hf, hd] at h; cases h
      · by_cases hmatch : dc.matches w args = true
        · have heq : w.methodMatch mi args =
              .ok (w.modifyMethod mi
                     fun m => { m with calls := m.calls ++ [dc] },
                   ms.calls.length) := by
            simp only [World.methodMatch, hm, hf, hd, if_pos hmatch]
          rw [heq] at h
          injection h with h2
          obtain ⟨rfl, rfl⟩ : _ = w1 ∧ _ = ri :=
            ⟨congrArg Prod.fst h2, congrArg Prod.snd h2⟩
          rw [world_inv_iff] at hw ⊢
          intro ms2 hms2
          rcases mem_listModify _ w.methods mi ms2 hms2 with hold | ⟨y, hy, rfl⟩
          · exact hw ms2 hold
          · obtain rfl : ms = y := Option.some.inj (hm.symm.trans hy)
            obtain ⟨hcalls, hdef⟩ := hw ms (List.getElem?_mem hm)
            constructor
            · intro r hr rec hrec
              rcases List.mem_append.mp hr with hr1 | hr2
              · exact hcalls r hr1 rec hrec
              · obtain rfl : r = dc := by simpa using hr2
                have hnil := hdef r hd rec hrec
                subst hnil
                exact ⟨rfl, fun rc hrc => absurd hrc (by simp)⟩
            · exact hdef
        · exfalso
          simp only [World.methodMatch, hm, hf, hd, if_neg hmatch] at h
          cases h
    · have heq : w.methodMatch mi args = .ok (w, k) := by
        simp only [World.methodMatch, hm, hf]
      rw [heq] at h
      injection h with h2
      obtain ⟨rfl, rfl⟩ : _ = w1 ∧ _ = ri :=
        ⟨congrArg Prod.fst h2, congrArg Prod.snd h2⟩
      exact hw

theorem dispatch_inv (w : World α ρ) (mi ri : Nat) (args : List α)
    (hw : w.inv = true) : ((w.dispatch mi ri args).1).inv = true := by
  rcases hm : w.methods[mi]? with _ | ms
  · simp only [World.dispatch, hm]; exact hw
  · rcases hr : ms.calls[ri]? with _ | r
    · simp only [World.dispatch, hm, hr]; exact hw
    · have hmem_ms : ms ∈ w.methods := List.getElem?_mem hm
      have hmem_r : r ∈ ms.calls := List.getElem?_mem hr
      cases r with
      | stub matcher rets => simp only [World.dispatch, hm, hr]; exact hw
      | mock matcher rets expect count after =>
        simp only [World.dispatch, hm, hr]
        rw [world_inv_iff] at hw ⊢
        intro ms2 hms2
        rcases mem_listModify _ w.methods mi ms2 hms2 with hold | ⟨y, hy, rfl⟩
        · exact hw ms2 hold
        · obtain rfl : ms = y := Option.some.inj (hm.symm.trans hy)
          obtain ⟨hcalls, hdef⟩ := hw ms hmem_ms
          refine ⟨?_, hdef⟩
          intro r2 hr2 rec hrec
          rcases mem_listModify _ ms.calls ri r2 hr2 with hold2 | ⟨y2, hy2, rfl⟩
          · exact hcalls r2 hold2 rec hrec
          · cases hrec
      | spy rets recorded =>
        simp only [World.dispatch, hm, hr]
        rw [world_inv_iff] at hw ⊢
        intro ms2 hms2
        rcases mem_listModify _ w.methods mi ms2 hms2 with hold | ⟨y, hy, rfl⟩
        · obtain ⟨hcalls, hdef⟩ := hw ms2 hold
          refine ⟨?_, hdef⟩
          intro r2 hr2 rec hrec
          obtain ⟨h1, h2⟩ := hcalls r2 hr2 rec hrec
          refine ⟨h1, fun rc hrc => ?_⟩
          have := h2 rc hrc
          show rc.tick ≤ w.tick + 1
          omega
        · obtain rfl : ms = y := Option.some.inj (hm.symm.trans hy)
          obtain ⟨hcalls, hdef⟩ := hw ms hmem_ms
          refine ⟨?_, hdef⟩
          intro r2 hr2 rec hrec
          rcases mem_listModify _ ms.calls ri r2 hr2 with hold2 | ⟨y2, hy2, rfl⟩
          · obtain ⟨h1, h2⟩ := hcalls r2 hold2 rec hrec
            refine ⟨h1, fun rc hrc => ?_⟩
            have := h2 rc hrc
            show rc.tick ≤ w.tick + 1
            omega
          · obtain rfl : RegCall.spy rets recorded = y2 :=
              Option.some.inj (hr.symm.trans hy2)
            have hrec2 : recorded ++ [⟨w.tick + 1, args⟩] = rec := by
              injection hrec
            subst hrec2
            obtain ⟨hs1, hs2⟩ := hcalls _ hmem_r recorded rfl
            constructor
            · refine ticksSorted_append_last recorded _ hs1 fun rc hrc => ?_
              have := hs2 rc hrc
              show rc.tick < w.tick + 1
              omega
            · intro rc hrc
              rcases List.mem_append.mp hrc with hin | hin
              · have := hs2 rc hin
                show rc.tick ≤ w.tick + 1
                omega
              · obtain rfl : rc = ⟨w.tick + 1, args⟩ := by simpa using hin
                show w.tick + 1 ≤ w.tick + 1
                omega
      | fake impl recorded =>
        simp only [World.dispatch, hm, hr]
        rw [world_inv_iff] at hw ⊢
        intro ms2 hms2
        rcases mem_listModify _ w.methods mi ms2 hms2 with hold | ⟨y, hy, rfl⟩
        · obtain ⟨hcalls, hdef⟩ := hw ms2 hold
          refine ⟨?_, hdef⟩
          intro r2 hr2 rec hrec
          obtain ⟨h1, h2⟩ := hcalls r2 hr2 rec hrec
          refine ⟨h1, fun rc hrc => ?_⟩
          have := h2 rc hrc
          show rc.tick ≤ w.tick + 1
          omega
        · obtain rfl : ms = y := Option.some.inj (hm.symm.trans hy)
          obtain ⟨hcalls, hdef⟩ := hw ms hmem_ms
          refine ⟨?_, hdef⟩
          intro r2 hr2 rec hrec
          rcases mem_listModify _ ms.calls ri r2 hr2 with hold2 | ⟨y2, hy2, rfl⟩
          · obtain ⟨h1, h2⟩ := hcalls r2 hold2 rec hrec
            refine ⟨h1, fun rc hrc => ?_⟩
            have := h2 rc hrc
            show rc.tick ≤ w.tick + 1
            omega
          · obtain rfl : RegCall.fake impl recorded = y2 :=
              Option.some.inj (hr.symm.trans hy2)
            have hrec2 : recorded ++ [⟨w.tick + 1, args⟩] = rec := by
              injection hrec
            subst hrec2
            obtain ⟨hs1, hs2⟩ := hcalls _ hmem_r recorded rfl
            constructor
            · refine ticksSorted_append_last recorded _ hs1 fun rc hrc => ?_
              have := hs2 rc hrc
              show rc.tick < w.tick + 1
              omega
            · intro rc hrc
              rcases List.mem_append.mp hrc with hin | hin
              · have := hs2 rc hin
                show rc.tick ≤ w.tick + 1
                omega
              · obtain rfl : rc = ⟨w.tick + 1, args⟩ := by simpa using hin
                show w.tick + 1 ≤ w.tick + 1
                omega

theorem invoke_inv (w : World α ρ) (mi : Nat) (args : List α)
    (hw : w.inv = true) : ((w.invoke mi args).1).inv = true := by
  cases hmm : w.methodMatch mi args with
  | error e => simp only [World.invoke, hmm]; exact hw
  | ok p =>
    obtain ⟨w1, ri⟩ := p
    simp only [World.invoke, hmm]
    exact dispatch_inv w1 mi ri args (methodMatch_inv w mi args w1 ri hmm hw)

theorem runCalls_inv (ops : List (Nat × List α)) :
    ∀ w : World α ρ, w.inv = true → (runCalls w ops).inv = true := by
  induction ops with
  | nil => intro w hw; exact hw
  | cons op rest ih => intro w hw; exact ih _ (invoke_inv w op.1 op.2 hw)

theorem slice_sublist (l r : List (RecordedCall α)) (f t : Int)
    (hok : Slice l f t = .ok r) : r.Sublist l := by
  simp only [Slice] at hok
  split at hok
  · cases hok
  · split at hok
    · injection hok with h2
      subst h2
      exact List.nil_sublist l
    · split at hok
      · injection hok with h2
        subst h2
        exact List.drop_sublist _ _
      · injection hok with h2
        subst h2
        exact (List.drop_sublist _ _).trans (List.take_sublist _ _)

theorem after_sublist (cs other : List (RecordedCall α)) :
    (After cs other).Sublist cs := by
  rcases hlast : other.getLast? with _ | lastRec
  · simp only [After, hlast]
    exact List.Sublist.refl cs
  · simp only [After, hlast]
    by_cases hp :
        sortSearch cs.length (fun i => decide (lastRec.tick < tickAt cs i))
          < cs.length
    · rw [if_pos hp]; exact List.drop_sublist _ _
    · rw [if_neg hp]; exact List.nil_sublist _

/-- C9 (implicit invariant): recorded calls appear in strictly increasing
tick order everywhere.  Invoking any method preserves the world invariant
(every spy/fake log strictly increasing with ticks bounded by the global
counter), so after any sequence of invocations from an invariant-satisfying
world every recorded log is tick-sorted; and each view derivation —
Matching, Slice, After — yields an order-preserving sub-sequence of its
parent, still tick-sorted.  This is what makes After's use of the other
view's last entry as its maximum tick correct. -/
theorem c9_tick_order_invariant :
    (∀ (w : World α ρ) (mi : Nat) (args : List α),
        w.inv = true → ((w.invoke mi args).1).inv = true)
    ∧ (∀ (w : World α ρ) (ops : List (Nat × List α)),
        w.inv = true → (runCalls w ops).inv = true)
    ∧ (∀ w : World α ρ, w.inv = true →
        ∀ ms ∈ w.methods, ∀ r ∈ ms.calls, ∀ rec, r.log? = some rec →
          ticksSorted rec = true ∧ ∀ rc ∈ rec, rc.tick ≤ w.tick)
    ∧ (∀ (matcher : List α → Bool) (l : List (RecordedCall α)),
        ticksSorted l = true →
        (Matching matcher l).Sublist l
        ∧ ticksSorted (Matching matcher l) = true)
    ∧ (∀ (l r : List (RecordedCall α)) (f t : Int), Slice l f t = .ok r →
        ticksSorted l = true → r.Sublist l ∧ ticksSorted r = true)
    ∧ (∀ cs other : List (RecordedCall α), ticksSorted cs = true →
        (After cs other).Sublist cs
        ∧ ticksSorted (After cs other) = true) := by
  refine ⟨invoke_inv, fun w ops => runCalls_inv ops w,
    fun w hw ms hms => ((world_inv_iff w).mp hw ms hms).1, ?_, ?_, ?_⟩
  · intro matcher l hl
    have hsub : (Matching matcher l).Sublist l := List.filter_sublist l
    exact ⟨hsub, ticksSorted_sublist _ _ hsub hl⟩
  · intro l r f t hok hl
    have hsub := slice_sublist l r f t hok
    exact ⟨hsub, ticksSorted_sublist _ _ hsub hl⟩
  · intro cs other hc
    have hsub := after_sublist cs other
    exact ⟨hsub, ticksSorted_sublist _ _ hsub hc⟩

/-- Witness for C9 at concrete inputs: the spied world satisfies the
invariant, keeps satisfying it across invocations, and the concrete views
derived from a sorted log are sorted sub-sequences. -/
theorem c9_witness :
    spiedWorld.inv = true
    ∧ ((spiedWorld.invoke 0 ["hello"]).1).inv = true
    ∧ (runCalls spiedWorld [(0, ["a"]), (0, ["b"])]).inv = true
    ∧ ((Matching (fun xs => xs == ["a"]) [rcS 1, rcS 2, rcS 3]).Sublist
          [rcS 1, rcS 2, rcS 3]
        ∧ ticksSorted (Matching (fun xs => xs == ["a"]) [rcS 1, rcS 2, rcS 3])
            = true)
    ∧ ((After [rcS 1, rcS 2, rcS 3] [rcS 2]).Sublist [rcS 1, rcS 2, rcS 3]
        ∧ ticksSorted (After [rcS 1, rcS 2, rcS 3] [rcS 2]) = true) :=
  ⟨rfl,
   (c9_tick_order_invariant (α := String) (ρ := Int)).1 spiedWorld 0 ["hello"]
     rfl,
   (c9_tick_order_invariant (α := String) (ρ := Int)).2.1 spiedWorld
     [(0, ["a"]), (0, ["b"])] rfl,
   (c9_tick_order_invariant (α := String) (ρ := Int)).2.2.2.1
     (fun xs => xs == ["a"]) [rcS 1, rcS 2, rcS 3] (by decide),
   (c9_tick_order_invariant (α := String) (ρ := Int)).2.2.2.2.2
     [rcS 1, rcS 2, rcS 3] [rcS 2] (by decide)⟩

end GoDouble
